import Mathlib

/-!
Verification of the ClawX workspace context synchronizer
(`src/electron/utils/openclaw-workspace.ts`).

Document bodies, section bodies, file names and paths are modelled as
`List Char`; JavaScript string primitives (`indexOf`, `slice`, `trim`,
`trimEnd`, `replace` with a string pattern, `startsWith`, `endsWith`)
are modelled as the corresponding total functions on `List Char`.
The filesystem side effects of the orchestrator are modelled as a pure
state transformation over an association list of file paths to contents.
-/

namespace ClawX

/-- The literal `CLAWX_BEGIN` marker from the source. -/
def CLAWX_BEGIN : List Char := "<!-- clawx:begin -->".data

/-- The literal `CLAWX_END` marker from the source. -/
def CLAWX_END : List Char := "<!-- clawx:end -->".data

/-- The set of characters removed by JavaScript `String.prototype.trim` /
`trimEnd`: ECMAScript WhiteSpace and LineTerminator code points. -/
def isJsWhitespace (c : Char) : Bool :=
  c = ' ' || c = '\t' || c = '\n' || c = '\r' ||
  c.val = 0x0b || c.val = 0x0c || c.val = 0xa0 || c.val = 0xfeff ||
  c.val = 0x1680 || (0x2000 ≤ c.val && c.val ≤ 0x200a) ||
  c.val = 0x2028 || c.val = 0x2029 || c.val = 0x202f || c.val = 0x205f ||
  c.val = 0x3000

/-- JavaScript `s.trimStart()`. -/
def jsTrimStart (l : List Char) : List Char := l.dropWhile isJsWhitespace

/-- JavaScript `s.trimEnd()`. -/
def jsTrimEnd (l : List Char) : List Char :=
  (l.reverse.dropWhile isJsWhitespace).reverse

/-- JavaScript `s.trim()`. -/
def jsTrim (l : List Char) : List Char := jsTrimEnd (jsTrimStart l)

/-- `occursAt hay pat i` holds when `pat` occurs as a substring of `hay`
starting at index `i`. -/
def occursAt (hay pat : List Char) (i : Nat) : Bool :=
  pat.isPrefixOf (hay.drop i)

/-- JavaScript `hay.indexOf(pat)`: index of the first occurrence of `pat`
in `hay`, or `none` where the source compares with `-1`. -/
def firstIdx (hay pat : List Char) : Option Nat :=
  match hay with
  | [] => if pat.isPrefixOf ([] : List Char) then some 0 else none
  | c :: t =>
    if pat.isPrefixOf (c :: t) then some 0
    else (firstIdx t pat).map (· + 1)

/-- JavaScript `s.replace(pat, repl)` with a plain string pattern:
replaces only the first occurrence of `pat`. -/
def replaceFirst (s pat repl : List Char) : List Char :=
  match firstIdx s pat with
  | none => s
  | some i => s.take i ++ repl ++ s.drop (i + pat.length)

/-- The canonical wrapped section built by `mergeClawXSection`:
`CLAWX_BEGIN + "\n" + section.trim() + "\n" + CLAWX_END`. -/
def wrappedSection (sectionBody : List Char) : List Char :=
  CLAWX_BEGIN ++ '\n' :: (jsTrim sectionBody ++ '\n' :: CLAWX_END)

/-- `mergeClawXSection` from `openclaw-workspace.ts` (lines 15-23):
if both markers are found, replace from the start of the first
`CLAWX_BEGIN` through the end of the first `CLAWX_END`; otherwise append
the wrapped section after right-trimming the existing body. -/
def mergeClawXSection (existing sectionBody : List Char) : List Char :=
  match firstIdx existing CLAWX_BEGIN, firstIdx existing CLAWX_END with
  | some beginIdx, some endIdx =>
    existing.take beginIdx ++ wrappedSection sectionBody ++
      existing.drop (endIdx + CLAWX_END.length)
  | _, _ =>
    jsTrimEnd existing ++ '\n' :: '\n' :: (wrappedSection sectionBody ++ ['\n'])

/-- The hollow-bootstrap test inlined in `repairClawXOnlyBootstrapFiles`
(lines 50-56): both markers present, and the text strictly before the
first `CLAWX_BEGIN` and strictly after the first `CLAWX_END` both trim
to the empty string. -/
def isHollowBootstrap (content : List Char) : Bool :=
  match firstIdx content CLAWX_BEGIN, firstIdx content CLAWX_END with
  | some beginIdx, some endIdx =>
    jsTrim (content.take beginIdx) = ([] : List Char) &&
    jsTrim (content.drop (endIdx + CLAWX_END.length)) = ([] : List Char)
  | _, _ => false

/-- A document is marker-balanced when it contains either both markers,
with the first `CLAWX_BEGIN` strictly before the first `CLAWX_END`,
or neither marker. -/
def wellFormedMarkers (d : List Char) : Bool :=
  match firstIdx d CLAWX_BEGIN, firstIdx d CLAWX_END with
  | some beginIdx, some endIdx => decide (beginIdx < endIdx)
  | none, none => true
  | _, _ => false

/-! ### Generic lemmas about substring occurrences and `firstIdx`

An occurrence of `pat` in `hay` at index `i` is expressed as
`pat <+: hay.drop i`. -/

theorem occ_length_le {hay pat : List Char} {i : Nat}
    (h : pat <+: hay.drop i) (hp : pat ≠ []) : i + pat.length ≤ hay.length := by
  have h1 : pat.length ≤ hay.length - i := by
    have := h.length_le
    simpa using this
  have h2 : 0 < pat.length := List.length_pos.mpr hp
  omega

theorem occ_get {hay pat : List Char} {i : Nat}
    (h : pat <+: hay.drop i) {j : Nat} (hj : j < pat.length) :
    hay.get? (i + j) = pat.get? j := by
  obtain ⟨t, ht⟩ := h
  have hd : (hay.drop i).get? j = pat.get? j := by
    rw [← ht]
    simp [List.getElem?_append, hj]
  rw [← hd]
  simp [List.getElem?_drop]

theorem occ_inner {a y pat : List Char} {i : Nat} (h : i + pat.length ≤ a.length) :
    pat <+: (a ++ y).drop i ↔ pat <+: a.drop i := by
  have hi : i ≤ a.length := by omega
  have hd : (a ++ y).drop i = a.drop i ++ y := by
    rw [List.drop_append_eq_append_drop]
    have : i - a.length = 0 := by omega
    rw [this, List.drop_zero]
  rw [hd]
  exact List.isPrefix_append_of_length (by simp; omega)

theorem occ_shift {a y pat : List Char} {i : Nat}
    (h : pat <+: (a ++ y).drop i) (hi : a.length ≤ i) :
    pat <+: y.drop (i - a.length) := by
  have hd : (a ++ y).drop i = y.drop (i - a.length) := by
    rw [List.drop_append_eq_append_drop, List.drop_eq_nil_of_le hi, List.nil_append]
  rwa [hd] at h

theorem occ_lift_right {y pat : List Char} {j : Nat}
    (h : pat <+: y.drop j) (a : List Char) :
    pat <+: (a ++ y).drop (a.length + j) := by
  have hd : (a ++ y).drop (a.length + j) = y.drop j := by
    rw [List.drop_append_eq_append_drop, List.drop_eq_nil_of_le (by omega),
      List.nil_append]
    congr 1
    omega
  rwa [hd]

theorem occ_straddle {a y pat : List Char} {i : Nat}
    (h : pat <+: (a ++ y).drop i) (h1 : i < a.length) (h2 : a.length < i + pat.length) :
    pat.drop (a.length - i) <+: y := by
  have hi : i ≤ a.length := by omega
  have hd : (a ++ y).drop i = a.drop i ++ y := by
    rw [List.drop_append_eq_append_drop]
    have : i - a.length = 0 := by omega
    rw [this, List.drop_zero]
  rw [hd] at h
  obtain ⟨t, ht⟩ := h
  set k := a.length - i with hk
  have hlen : (a.drop i).length = k := by simp [hk]
  have hkle : k ≤ pat.length := by omega
  have hdropk : (pat ++ t).drop k = (a.drop i ++ y).drop k := by rw [ht]
  have hl : (pat ++ t).drop k = pat.drop k ++ t := by
    rw [List.drop_append_eq_append_drop]
    have : k - pat.length = 0 := by omega
    rw [this, List.drop_zero]
  have hr : (a.drop i ++ y).drop k = y := List.drop_left' hlen
  exact ⟨t, by rw [← hl, hdropk, hr]⟩

theorem occ_of_take {l pat : List Char} {i n : Nat}
    (h : pat <+: (l.take n).drop i) : pat <+: l.drop i := by
  have hd : (l.take n).drop i = (l.drop i).take (n - i) := List.drop_take n i l
  rw [hd] at h
  exact h.trans (List.take_prefix _ _)

theorem infix_iff_exists_occ (l pat : List Char) :
    pat <:+: l ↔ ∃ i, pat <+: l.drop i := by
  constructor
  · rintro ⟨u, v, huv⟩
    refine ⟨u.length, ⟨v, ?_⟩⟩
    rw [← huv, List.append_assoc, List.drop_left]
  · rintro ⟨i, t, ht⟩
    exact ⟨l.take i, t, by rw [List.append_assoc, ht, List.take_append_drop]⟩

theorem firstIdx_eq_some_iff (hay pat : List Char) (n : Nat) :
    firstIdx hay pat = some n ↔
      (pat <+: hay.drop n ∧ ∀ i, i < n → ¬ pat <+: hay.drop i) := by
  induction hay generalizing n with
  | nil =>
    simp only [firstIdx]
    by_cases hp : pat.isPrefixOf ([] : List Char)
    · have hp' : pat = [] := by
        cases pat with
        | nil => rfl
        | cons c t => simp [List.isPrefixOf] at hp
      subst hp'
      simp only [if_pos hp]
      constructor
      · rintro ⟨rfl⟩
        exact ⟨List.nil_prefix, by omega⟩
      · rintro ⟨-, hmin⟩
        by_contra hne
        have hn : 0 < n := by
          rcases Nat.eq_zero_or_pos n with h0 | h0
          · subst h0
            exact absurd rfl hne
          · exact h0
        exact hmin 0 hn List.nil_prefix
    · have hp' : pat ≠ [] := by
        intro hc
        subst hc
        simp [List.isPrefixOf] at hp
      simp only [if_neg hp]
      constructor
      · rintro ⟨⟩
      · rintro ⟨hocc, -⟩
        rw [List.drop_nil] at hocc
        exact absurd (List.prefix_nil.mp hocc) hp'
  | cons c t ih =>
    simp only [firstIdx]
    by_cases hp : pat.isPrefixOf (c :: t)
    · simp only [if_pos hp]
      have hp' : pat <+: c :: t := List.isPrefixOf_iff_prefix.mp hp
      constructor
      · rintro ⟨rfl⟩
        exact ⟨by simpa using hp', by omega⟩
      · rintro ⟨-, hmin⟩
        by_contra hne
        have hn : 0 < n := by
          rcases Nat.eq_zero_or_pos n with h0 | h0
          · subst h0
            exact absurd rfl hne
          · exact h0
        exact hmin 0 hn (by simpa using hp')
    · simp only [if_neg hp]
      have hp' : ¬ pat <+: c :: t := fun hc => hp (List.isPrefixOf_iff_prefix.mpr hc)
      constructor
      · intro h
        rcases Option.map_eq_some'.mp h with ⟨m, hm, rfl⟩
        rcases (ih m).mp hm with ⟨hocc, hmin⟩
        refine ⟨by simpa using hocc, ?_⟩
        intro i hi
        cases i with
        | zero => simpa using hp'
        | succ j =>
          have hj : j < m := by omega
          simpa using hmin j hj
      · rintro ⟨hocc, hmin⟩
        cases n with
        | zero => exact absurd (by simpa using hocc) hp'
        | succ m =>
          have hm : firstIdx t pat = some m := by
            refine (ih m).mpr ⟨by simpa using hocc, ?_⟩
            intro i hi
            have := hmin (i + 1) (by omega)
            simpa using this
          rw [hm]
          rfl

theorem firstIdx_eq_none_iff (hay pat : List Char) :
    firstIdx hay pat = none ↔ ∀ i, ¬ pat <+: hay.drop i := by
  induction hay with
  | nil =>
    simp only [firstIdx]
    by_cases hp : pat.isPrefixOf ([] : List Char)
    · have hp' : pat = [] := by
        cases pat with
        | nil => rfl
        | cons c t => simp [List.isPrefixOf] at hp
      subst hp'
      simp only [if_pos hp]
      constructor
      · rintro ⟨⟩
      · intro h
        exact absurd List.nil_prefix (h 0)
    · have hp' : pat ≠ [] := by
        intro hc
        subst hc
        simp [List.isPrefixOf] at hp
      simp only [if_neg hp]
      constructor
      · intro _ i hocc
        rw [List.drop_nil] at hocc
        exact hp' (List.prefix_nil.mp hocc)
      · intro _
        trivial
  | cons c t ih =>
    simp only [firstIdx]
    by_cases hp : pat.isPrefixOf (c :: t)
    · simp only [if_pos hp]
      have hp' : pat <+: c :: t := List.isPrefixOf_iff_prefix.mp hp
      constructor
      · rintro ⟨⟩
      · intro h
        exact absurd (by simpa using hp') (h 0)
    · simp only [if_neg hp]
      have hp' : ¬ pat <+: c :: t := fun hc => hp (List.isPrefixOf_iff_prefix.mpr hc)
      constructor
      · intro h i
        have hm : firstIdx t pat = none := by
          cases he : firstIdx t pat with
          | none => rfl
          | some m => rw [he] at h; exact absurd h (by simp)
        cases i with
        | zero => simpa using hp'
        | succ j =>
          have := (ih.mp hm) j
          simpa using this
      · intro h
        have hm : firstIdx t pat = none := by
          refine ih.mpr ?_
          intro j hocc
          exact (h (j + 1)) (by simpa using hocc)
        rw [hm]
        rfl

theorem firstIdx_isSome_iff (hay pat : List Char) :
    (firstIdx hay pat).isSome = true ↔ pat <:+: hay := by
  rw [infix_iff_exists_occ]
  constructor
  · intro h
    rcases Option.isSome_iff_exists.mp h with ⟨n, hn⟩
    exact ⟨n, ((firstIdx_eq_some_iff hay pat n).mp hn).1⟩
  · rintro ⟨i, hi⟩
    cases he : firstIdx hay pat with
    | none => exact absurd hi ((firstIdx_eq_none_iff hay pat).mp he i)
    | some n => simp

theorem firstIdx_none_of_absent {hay pat : List Char} (h : ¬ pat <:+: hay) :
    firstIdx hay pat = none := by
  rw [firstIdx_eq_none_iff]
  intro i hocc
  exact h ((infix_iff_exists_occ hay pat).mpr ⟨i, hocc⟩)

theorem firstIdx_of_start {hay pat : List Char} (h : pat <+: hay) :
    firstIdx hay pat = some 0 := by
  rw [firstIdx_eq_some_iff]
  exact ⟨by simpa using h, by omega⟩

theorem firstIdx_append (pre y pat : List Char)
    (hclean : ∀ i, i < pre.length → ¬ pat <+: (pre ++ y).drop i) :
    firstIdx (pre ++ y) pat = (firstIdx y pat).map (pre.length + ·) := by
  cases he : firstIdx y pat with
  | none =>
    rw [Option.map_none', firstIdx_eq_none_iff]
    intro i hocc
    by_cases hi : i < pre.length
    · exact hclean i hi hocc
    · have := occ_shift hocc (by omega)
      exact (firstIdx_eq_none_iff y pat).mp he _ this
  | some j =>
    rcases (firstIdx_eq_some_iff y pat j).mp he with ⟨hocc, hmin⟩
    rw [Option.map_some', firstIdx_eq_some_iff]
    refine ⟨occ_lift_right hocc pre, ?_⟩
    intro i hi hocc'
    by_cases hip : i < pre.length
    · exact hclean i hip hocc'
    · have hsh := occ_shift hocc' (by omega)
      exact hmin (i - pre.length) (by omega) hsh

/-! ### Concrete facts about the two marker strings -/

theorem begin_length : CLAWX_BEGIN.length = 20 := by decide

theorem end_length : CLAWX_END.length = 18 := by decide

theorem end_ne_nil : CLAWX_END ≠ [] := by decide

theorem no_overlap_BB : ∀ k, k < 20 → 0 < k → ¬ CLAWX_BEGIN.drop k <+: CLAWX_BEGIN := by
  decide

theorem no_overlap_EB : ∀ k, k < 18 → 0 < k → ¬ CLAWX_END.drop k <+: CLAWX_BEGIN := by
  decide

theorem no_overlap_EE : ∀ k, k < 18 → 0 < k → ¬ CLAWX_END.drop k <+: CLAWX_END := by
  decide

theorem end_no_start_in_begin : ¬ CLAWX_END <+: CLAWX_BEGIN := by decide

theorem begin_lt_only_at_zero : ∀ m, m < 20 → 0 < m → ¬ CLAWX_BEGIN.get? m = some '<' := by
  decide

theorem end_head_lt : CLAWX_END.get? 0 = some '<' := by decide

theorem begin_head_lt : CLAWX_BEGIN.get? 0 = some '<' := by decide

theorem newline_not_mem_E : '\n' ∉ CLAWX_END := by decide

theorem newline_not_mem_B : '\n' ∉ CLAWX_BEGIN := by decide

/-! ### Trimming lemmas -/

theorem jsTrimEnd_isPre (l : List Char) : jsTrimEnd l <+: l := by
  rw [← List.reverse_suffix, jsTrimEnd, List.reverse_reverse]
  exact List.dropWhile_suffix _

theorem jsTrim_isInf (l : List Char) : jsTrim l <:+: l := by
  have h1 : jsTrim l <+: jsTrimStart l := jsTrimEnd_isPre _
  have h2 : jsTrimStart l <:+ l := List.dropWhile_suffix _
  exact h1.isInfix.trans h2.isInfix

theorem jsTrimEnd_eq_nil {l : List Char} (h : ∀ c ∈ l, isJsWhitespace c = true) :
    jsTrimEnd l = [] := by
  rw [jsTrimEnd, List.reverse_eq_nil_iff]
  rw [List.dropWhile_eq_nil_iff]
  intro x hx
  exact h x (List.mem_reverse.mp hx)

/-! ### Clean-region lemmas: no marker occurrence can start strictly
before a freshly inserted `CLAWX_BEGIN` when the preceding text is
marker-free, and no `CLAWX_END` occurrence can start inside the
inserted `CLAWX_BEGIN`. -/

theorem not_occ_pre_B {pre : List Char} (z : List Char) (h : ¬ CLAWX_BEGIN <:+: pre) :
    ∀ i, i < pre.length → ¬ CLAWX_BEGIN <+: (pre ++ (CLAWX_BEGIN ++ z)).drop i := by
  intro i hi hocc
  have hBL := begin_length
  by_cases hfull : i + CLAWX_BEGIN.length ≤ pre.length
  · have := (occ_inner hfull).mp hocc
    exact h ((infix_iff_exists_occ pre CLAWX_BEGIN).mpr ⟨i, this⟩)
  · have hstr := occ_straddle hocc hi (by omega)
    have hk1 : 0 < pre.length - i := by omega
    have hk2 : pre.length - i < 20 := by omega
    have hlen : (CLAWX_BEGIN.drop (pre.length - i)).length ≤ CLAWX_BEGIN.length := by
      simp
    have := (List.isPrefix_append_of_length hlen).mp hstr
    exact no_overlap_BB (pre.length - i) hk2 hk1 this

theorem not_occ_pre_E {pre : List Char} (z : List Char) (h : ¬ CLAWX_END <:+: pre) :
    ∀ i, i < pre.length → ¬ CLAWX_END <+: (pre ++ (CLAWX_BEGIN ++ z)).drop i := by
  intro i hi hocc
  have hBL := begin_length
  have hEL := end_length
  by_cases hfull : i + CLAWX_END.length ≤ pre.length
  · have := (occ_inner hfull).mp hocc
    exact h ((infix_iff_exists_occ pre CLAWX_END).mpr ⟨i, this⟩)
  · have hstr := occ_straddle hocc hi (by omega)
    have hk1 : 0 < pre.length - i := by omega
    have hk2 : pre.length - i < 18 := by omega
    have hlen : (CLAWX_END.drop (pre.length - i)).length ≤ CLAWX_BEGIN.length := by
      simp
      omega
    have := (List.isPrefix_append_of_length hlen).mp hstr
    exact no_overlap_EB (pre.length - i) hk2 hk1 this

theorem not_occ_E_in_B (z : List Char) :
    ∀ i, i < CLAWX_BEGIN.length → ¬ CLAWX_END <+: (CLAWX_BEGIN ++ z).drop i := by
  intro i hi hocc
  have hBL := begin_length
  have hEL := end_length
  rcases Nat.eq_zero_or_pos i with rfl | hpos
  · rw [List.drop_zero] at hocc
    have hlen : CLAWX_END.length ≤ CLAWX_BEGIN.length := by omega
    exact end_no_start_in_begin ((List.isPrefix_append_of_length hlen).mp hocc)
  · have hget := occ_get hocc (j := 0) (by omega)
    rw [Nat.add_zero, end_head_lt] at hget
    have hleft : (CLAWX_BEGIN ++ z).get? i = CLAWX_BEGIN.get? i := by
      simp [List.getElem?_append, hi]
    rw [hleft] at hget
    exact begin_lt_only_at_zero i (by omega) hpos hget

/-! ### Marker positions in a freshly wrapped section -/

theorem wrappedSection_length (s : List Char) :
    (wrappedSection s).length = 40 + (jsTrim s).length := by
  have hBL := begin_length
  have hEL := end_length
  simp [wrappedSection]
  omega

theorem wrapped_eq_shape (s suf : List Char) :
    wrappedSection s ++ suf =
      CLAWX_BEGIN ++ ('\n' :: ((jsTrim s ++ '\n' :: CLAWX_END) ++ suf)) := by
  simp [wrappedSection]

theorem firstIdx_wrapped_B (s suf : List Char) :
    firstIdx (wrappedSection s ++ suf) CLAWX_BEGIN = some 0 := by
  rw [wrapped_eq_shape]
  exact firstIdx_of_start (List.prefix_append _ _)

theorem firstIdx_wrapped_E (s suf : List Char) (hs : ¬ CLAWX_END <:+: jsTrim s) :
    firstIdx (wrappedSection s ++ suf) CLAWX_END = some (22 + (jsTrim s).length) := by
  have hBL := begin_length
  have hEL := end_length
  set t := jsTrim s with ht
  have hshape : wrappedSection s ++ suf =
      (CLAWX_BEGIN ++ ['\n']) ++ ((t ++ ['\n']) ++ (CLAWX_END ++ suf)) := by
    simp [wrappedSection]
  rw [hshape]
  have hinner : firstIdx ((t ++ ['\n']) ++ (CLAWX_END ++ suf)) CLAWX_END =
      some (t.length + 1) := by
    have hclean : ∀ i, i < (t ++ ['\n']).length →
        ¬ CLAWX_END <+: ((t ++ ['\n']) ++ (CLAWX_END ++ suf)).drop i := by
      intro i hi hocc
      rw [List.length_append, List.length_cons, List.length_nil] at hi
      by_cases hfull : i + CLAWX_END.length ≤ t.length
      · have hsh : (t ++ ['\n']) ++ (CLAWX_END ++ suf) =
            t ++ (['\n'] ++ (CLAWX_END ++ suf)) := by simp
        rw [hsh] at hocc
        have := (occ_inner hfull).mp hocc
        exact hs ((infix_iff_exists_occ t CLAWX_END).mpr ⟨i, this⟩)
      · have hj : t.length - i < CLAWX_END.length := by omega
        have hget := occ_get hocc (j := t.length - i) hj
        have hidx : i + (t.length - i) = t.length := by omega
        rw [hidx] at hget
        have hsh : (t ++ ['\n']) ++ (CLAWX_END ++ suf) =
            t ++ ('\n' :: (CLAWX_END ++ suf)) := by simp
        have hnl : ((t ++ ['\n']) ++ (CLAWX_END ++ suf)).get? t.length = some '\n' := by
          rw [hsh, List.get?_eq_getElem?,
            List.getElem?_append_right (Nat.le_refl t.length)]
          simp
        rw [hnl] at hget
        exact newline_not_mem_E (List.get?_mem hget.symm)
    rw [firstIdx_append _ _ _ hclean, firstIdx_of_start (List.prefix_append _ _)]
    simp
  have hclean2 : ∀ i, i < (CLAWX_BEGIN ++ ['\n']).length →
      ¬ CLAWX_END <+: ((CLAWX_BEGIN ++ ['\n']) ++ ((t ++ ['\n']) ++ (CLAWX_END ++ suf))).drop i := by
    intro i hi hocc
    rw [List.length_append, List.length_cons, List.length_nil] at hi
    have hsh : (CLAWX_BEGIN ++ ['\n']) ++ ((t ++ ['\n']) ++ (CLAWX_END ++ suf)) =
        CLAWX_BEGIN ++ ('\n' :: ((t ++ ['\n']) ++ (CLAWX_END ++ suf))) := by simp
    rw [hsh] at hocc
    by_cases hib : i < CLAWX_BEGIN.length
    · exact not_occ_E_in_B _ i hib hocc
    · have hi20 : i = 20 := by omega
      have hget := occ_get hocc (j := 0) (by omega)
      rw [Nat.add_zero, end_head_lt] at hget
      have : (CLAWX_BEGIN ++ ('\n' :: ((t ++ ['\n']) ++ (CLAWX_END ++ suf)))).get? i =
          some '\n' := by
        subst hi20
        rw [List.get?_eq_getElem?,
          List.getElem?_append_right (by omega : CLAWX_BEGIN.length ≤ 20)]
        simp [hBL]
      rw [this] at hget
      exact absurd hget.symm (by decide)
  rw [firstIdx_append _ _ _ hclean2, hinner]
  simp
  omega

/-- Core fixed-point lemma: `mergeClawXSection` leaves any document of
the shape `pre ++ wrappedSection s ++ suf` unchanged, provided the text
before the wrapped section contains no marker and the trimmed section
body does not contain `CLAWX_END`. -/
theorem merge_fixed (pre suf s : List Char)
    (hpB : ¬ CLAWX_BEGIN <:+: pre) (hpE : ¬ CLAWX_END <:+: pre)
    (hs : ¬ CLAWX_END <:+: jsTrim s) :
    mergeClawXSection (pre ++ (wrappedSection s ++ suf)) s =
      pre ++ (wrappedSection s ++ suf) := by
  have hBL := begin_length
  have hEL := end_length
  have hwL := wrappedSection_length s
  have hB : firstIdx (pre ++ (wrappedSection s ++ suf)) CLAWX_BEGIN = some pre.length := by
    have hclean : ∀ i, i < pre.length →
        ¬ CLAWX_BEGIN <+: (pre ++ (wrappedSection s ++ suf)).drop i := by
      intro i hi hocc
      rw [wrapped_eq_shape] at hocc
      exact not_occ_pre_B _ hpB i hi hocc
    rw [firstIdx_append _ _ _ hclean, firstIdx_wrapped_B]
    simp
  have hE : firstIdx (pre ++ (wrappedSection s ++ suf)) CLAWX_END =
      some (pre.length + (22 + (jsTrim s).length)) := by
    have hclean : ∀ i, i < pre.length →
        ¬ CLAWX_END <+: (pre ++ (wrappedSection s ++ suf)).drop i := by
      intro i hi hocc
      rw [wrapped_eq_shape] at hocc
      exact not_occ_pre_E _ hpE i hi hocc
    rw [firstIdx_append _ _ _ hclean, firstIdx_wrapped_E s suf hs]
    simp
  have htake : (pre ++ (wrappedSection s ++ suf)).take pre.length = pre :=
    List.take_left pre _
  have hdrop : (pre ++ (wrappedSection s ++ suf)).drop
      (pre.length + (22 + (jsTrim s).length) + CLAWX_END.length) = suf := by
    rw [← List.append_assoc]
    apply List.drop_left'
    rw [List.length_append, hwL]
    omega
  rw [mergeClawXSection, hB, hE]
  show (pre ++ (wrappedSection s ++ suf)).take pre.length ++ wrappedSection s ++
      (pre ++ (wrappedSection s ++ suf)).drop
        (pre.length + (22 + (jsTrim s).length) + CLAWX_END.length) =
    pre ++ (wrappedSection s ++ suf)
  rw [htake, hdrop]
  simp

/-! ### Branch lemmas for `mergeClawXSection` -/

theorem merge_of_no_begin {d : List Char} (s : List Char)
    (hB : firstIdx d CLAWX_BEGIN = none) :
    mergeClawXSection d s =
      jsTrimEnd d ++ '\n' :: '\n' :: (wrappedSection s ++ ['\n']) := by
  rw [mergeClawXSection, hB]

theorem merge_of_both {d : List Char} (s : List Char) {b e : Nat}
    (hB : firstIdx d CLAWX_BEGIN = some b) (hE : firstIdx d CLAWX_END = some e) :
    mergeClawXSection d s =
      d.take b ++ (wrappedSection s ++ d.drop (e + CLAWX_END.length)) := by
  rw [mergeClawXSection, hB, hE]
  show d.take b ++ wrappedSection s ++ d.drop (e + CLAWX_END.length) = _
  rw [List.append_assoc]

/-- If a pattern without newlines does not occur in `x`, it does not
occur in `x` padded with two trailing newline characters either. -/
theorem not_infix_nlpad {x pat : List Char} (hx : ¬ pat <:+: x)
    (hnl : '\n' ∉ pat) (hp : pat ≠ []) : ¬ pat <:+: x ++ ['\n', '\n'] := by
  intro h
  rcases (infix_iff_exists_occ _ _).mp h with ⟨i, hocc⟩
  have hlen := occ_length_le hocc hp
  rw [List.length_append] at hlen
  have hip : 0 < pat.length := List.length_pos.mpr hp
  by_cases hfull : i + pat.length ≤ x.length
  · exact hx ((infix_iff_exists_occ _ _).mpr ⟨i, (occ_inner hfull).mp hocc⟩)
  · by_cases hix : i ≤ x.length
    · have hj : x.length - i < pat.length := by omega
      have hget := occ_get hocc (j := x.length - i) hj
      have hidx : i + (x.length - i) = x.length := by omega
      rw [hidx] at hget
      have hval : (x ++ ['\n', '\n']).get? x.length = some '\n' := by
        rw [List.get?_eq_getElem?, List.getElem?_append_right (Nat.le_refl _)]
        simp
      rw [hval] at hget
      exact hnl (List.get?_mem hget.symm)
    · have hi1 : i = x.length + 1 := by
        simp at hlen
        omega
      have hget := occ_get hocc (j := 0) (by omega)
      rw [Nat.add_zero] at hget
      have hval : (x ++ ['\n', '\n']).get? i = some '\n' := by
        subst hi1
        rw [List.get?_eq_getElem?, List.getElem?_append_right (by omega)]
        simp
      rw [hval] at hget
      exact hnl (List.get?_mem hget.symm)

/-- Amended idempotence of the merge: `mergeClawXSection` is idempotent
on documents whose markers are balanced (both markers with the first
`CLAWX_BEGIN` before the first `CLAWX_END`, or neither marker), for
section bodies not containing `CLAWX_END`. -/
theorem mergeClawXSection_idempotent (d s : List Char)
    (hd : wellFormedMarkers d = true) (hs : ¬ CLAWX_END <:+: s) :
    mergeClawXSection (mergeClawXSection d s) s = mergeClawXSection d s := by
  have hst : ¬ CLAWX_END <:+: jsTrim s := fun h => hs (h.trans (jsTrim_isInf s))
  have hBL := begin_length
  have hEL := end_length
  cases hfB : firstIdx d CLAWX_BEGIN with
  | some b =>
    cases hfE : firstIdx d CLAWX_END with
    | some e =>
      have hbe : b < e := by
        simp [wellFormedMarkers, hfB, hfE] at hd
        exact hd
      have hminB := ((firstIdx_eq_some_iff d CLAWX_BEGIN b).mp hfB).2
      have hminE := ((firstIdx_eq_some_iff d CLAWX_END e).mp hfE).2
      have htb : (d.take b).length ≤ b := by
        simp [List.length_take]
      have hpB : ¬ CLAWX_BEGIN <:+: d.take b := by
        intro h
        rcases (infix_iff_exists_occ _ _).mp h with ⟨i, hocc⟩
        have hlen := occ_length_le hocc (by decide)
        exact hminB i (by omega) (occ_of_take hocc)
      have hpE : ¬ CLAWX_END <:+: d.take b := by
        intro h
        rcases (infix_iff_exists_occ _ _).mp h with ⟨i, hocc⟩
        have hlen := occ_length_le hocc end_ne_nil
        exact hminE i (by omega) (occ_of_take hocc)
      rw [merge_of_both s hfB hfE]
      exact merge_fixed (d.take b) (d.drop (e + CLAWX_END.length)) s hpB hpE hst
    | none =>
      simp [wellFormedMarkers, hfB, hfE] at hd
  | none =>
    cases hfE : firstIdx d CLAWX_END with
    | some e =>
      simp [wellFormedMarkers, hfB, hfE] at hd
    | none =>
      have hnoB : ∀ i, ¬ CLAWX_BEGIN <+: d.drop i := (firstIdx_eq_none_iff _ _).mp hfB
      have hnoE : ∀ i, ¬ CLAWX_END <+: d.drop i := (firstIdx_eq_none_iff _ _).mp hfE
      have hxB : ¬ CLAWX_BEGIN <:+: jsTrimEnd d := by
        intro h
        rcases (infix_iff_exists_occ _ _).mp (h.trans (jsTrimEnd_isPre d).isInfix) with
          ⟨i, hocc⟩
        exact hnoB i hocc
      have hxE : ¬ CLAWX_END <:+: jsTrimEnd d := by
        intro h
        rcases (infix_iff_exists_occ _ _).mp (h.trans (jsTrimEnd_isPre d).isInfix) with
          ⟨i, hocc⟩
        exact hnoE i hocc
      have hpB : ¬ CLAWX_BEGIN <:+: jsTrimEnd d ++ ['\n', '\n'] :=
        not_infix_nlpad hxB newline_not_mem_B (by decide)
      have hpE : ¬ CLAWX_END <:+: jsTrimEnd d ++ ['\n', '\n'] :=
        not_infix_nlpad hxE newline_not_mem_E end_ne_nil
      have h1 : mergeClawXSection d s =
          (jsTrimEnd d ++ ['\n', '\n']) ++ (wrappedSection s ++ ['\n']) := by
        rw [merge_of_no_begin s hfB]
        simp
      rw [h1]
      exact merge_fixed (jsTrimEnd d ++ ['\n', '\n']) ['\n'] s hpB hpE hst

/-- Amended replace-in-place: when the prefix before the marker pair is
marker-free and the text between the markers does not contain
`CLAWX_END`, the merge replaces exactly the marker span. -/
theorem merge_replace_exact (pre old suf s : List Char)
    (h1 : ¬ CLAWX_BEGIN <:+: pre) (h2 : ¬ CLAWX_END <:+: pre)
    (h3 : ¬ CLAWX_END <:+: old) :
    mergeClawXSection (pre ++ (CLAWX_BEGIN ++ (old ++ (CLAWX_END ++ suf)))) s =
      pre ++ (wrappedSection s ++ suf) := by
  have hBL := begin_length
  have hEL := end_length
  have hfB : firstIdx (pre ++ (CLAWX_BEGIN ++ (old ++ (CLAWX_END ++ suf)))) CLAWX_BEGIN =
      some pre.length := by
    rw [firstIdx_append _ _ _ (not_occ_pre_B _ h1),
      firstIdx_of_start (List.prefix_append _ _)]
    simp
  have hstep3 : firstIdx (old ++ (CLAWX_END ++ suf)) CLAWX_END = some old.length := by
    have hclean : ∀ i, i < old.length →
        ¬ CLAWX_END <+: (old ++ (CLAWX_END ++ suf)).drop i := by
      intro i hi hocc
      by_cases hfull : i + CLAWX_END.length ≤ old.length
      · exact h3 ((infix_iff_exists_occ _ _).mpr ⟨i, (occ_inner hfull).mp hocc⟩)
      · have hstr := occ_straddle hocc hi (by omega)
        have hk1 : 0 < old.length - i := by omega
        have hk2 : old.length - i < 18 := by omega
        have hlen : (CLAWX_END.drop (old.length - i)).length ≤ CLAWX_END.length := by
          simp
        have := (List.isPrefix_append_of_length hlen).mp hstr
        exact no_overlap_EE (old.length - i) hk2 hk1 this
    rw [firstIdx_append _ _ _ hclean, firstIdx_of_start (List.prefix_append _ _)]
    simp
  have hstep2 : firstIdx (CLAWX_BEGIN ++ (old ++ (CLAWX_END ++ suf))) CLAWX_END =
      some (CLAWX_BEGIN.length + old.length) := by
    rw [firstIdx_append _ _ _ (not_occ_E_in_B _), hstep3]
    simp
  have hfE : firstIdx (pre ++ (CLAWX_BEGIN ++ (old ++ (CLAWX_END ++ suf)))) CLAWX_END =
      some (pre.length + (CLAWX_BEGIN.length + old.length)) := by
    rw [firstIdx_append _ _ _ (not_occ_pre_E _ h2), hstep2]
    simp
  rw [merge_of_both s hfB hfE]
  have htake : (pre ++ (CLAWX_BEGIN ++ (old ++ (CLAWX_END ++ suf)))).take pre.length =
      pre := List.take_left pre _
  have hdrop : (pre ++ (CLAWX_BEGIN ++ (old ++ (CLAWX_END ++ suf)))).drop
      (pre.length + (CLAWX_BEGIN.length + old.length) + CLAWX_END.length) = suf := by
    have hsh : pre ++ (CLAWX_BEGIN ++ (old ++ (CLAWX_END ++ suf))) =
        (pre ++ (CLAWX_BEGIN ++ (old ++ CLAWX_END))) ++ suf := by simp
    rw [hsh]
    apply List.drop_left'
    simp
    omega
  rw [htake, hdrop]

theorem merge_of_no_end {d : List Char} (s : List Char) {b : Nat}
    (hB : firstIdx d CLAWX_BEGIN = some b) (hE : firstIdx d CLAWX_END = none) :
    mergeClawXSection d s =
      jsTrimEnd d ++ '\n' :: '\n' :: (wrappedSection s ++ ['\n']) := by
  rw [mergeClawXSection, hB, hE]

/-- The wrapped section occurs inside every output of the merge. -/
theorem wrapped_infix_merge (d s : List Char) :
    wrappedSection s <:+: mergeClawXSection d s := by
  cases hfB : firstIdx d CLAWX_BEGIN with
  | some b =>
    cases hfE : firstIdx d CLAWX_END with
    | some e =>
      rw [merge_of_both s hfB hfE]
      exact ⟨d.take b, d.drop (e + CLAWX_END.length), by simp⟩
    | none =>
      rw [merge_of_no_end s hfB hfE]
      exact ⟨jsTrimEnd d ++ ['\n', '\n'], ['\n'], by simp⟩
  | none =>
    rw [merge_of_no_begin s hfB]
    exact ⟨jsTrimEnd d ++ ['\n', '\n'], ['\n'], by simp⟩

theorem begin_infix_wrapped (s : List Char) : CLAWX_BEGIN <:+: wrappedSection s :=
  ⟨[], '\n' :: (jsTrim s ++ '\n' :: CLAWX_END), by simp [wrappedSection]⟩

theorem end_infix_wrapped (s : List Char) : CLAWX_END <:+: wrappedSection s :=
  ⟨CLAWX_BEGIN ++ '\n' :: jsTrim s ++ ['\n'], [], by simp [wrappedSection]⟩

/-- Both markers occur in every output of the merge, so a subsequent
merge on the output always takes the in-place replacement branch. -/
theorem merge_output_has_both_markers (d s : List Char) :
    (firstIdx (mergeClawXSection d s) CLAWX_BEGIN).isSome = true ∧
    (firstIdx (mergeClawXSection d s) CLAWX_END).isSome = true := by
  have hw := wrapped_infix_merge d s
  constructor
  · exact (firstIdx_isSome_iff _ _).mpr ((begin_infix_wrapped s).trans hw)
  · exact (firstIdx_isSome_iff _ _).mpr ((end_infix_wrapped s).trans hw)

/-- A merge applied to a document that is whitespace apart from markers
inserted by a previous merge of an effectively empty body is recognised
as hollow: core computation for the repair cross-check. -/
theorem merge_into_whitespace_is_hollow (d s : List Char)
    (hw : ∀ c ∈ d, isJsWhitespace c = true)
    (hdB : ¬ CLAWX_BEGIN <:+: d)
    (hsE : ¬ CLAWX_END <:+: s) :
    isHollowBootstrap (mergeClawXSection d s) = true := by
  have hBL := begin_length
  have hEL := end_length
  have hst : ¬ CLAWX_END <:+: jsTrim s := fun h => hsE (h.trans (jsTrim_isInf s))
  have hfB0 : firstIdx d CLAWX_BEGIN = none := firstIdx_none_of_absent hdB
  have hm : mergeClawXSection d s = ['\n', '\n'] ++ (wrappedSection s ++ ['\n']) := by
    rw [merge_of_no_begin s hfB0, jsTrimEnd_eq_nil hw]
    simp
  have hclean : ∀ i, i < (['\n', '\n'] : List Char).length →
      ∀ pat : List Char, pat.get? 0 = some '<' →
      ¬ pat <+: ((['\n', '\n'] : List Char) ++ (wrappedSection s ++ ['\n'])).drop i := by
    intro i hi pat hhead hocc
    have hplen : 0 < pat.length := by
      by_contra hc
      have : pat = [] := by
        cases pat with
        | nil => rfl
        | cons a t => simp at hc
      rw [this] at hhead
      simp at hhead
    have hget := occ_get hocc (j := 0) hplen
    rw [Nat.add_zero, hhead] at hget
    simp at hi
    rcases i with _ | _ | i
    · simp at hget
    · simp at hget
    · omega
  have hfB : firstIdx (mergeClawXSection d s) CLAWX_BEGIN = some 2 := by
    rw [hm, firstIdx_append _ _ _ (fun i hi => hclean i hi CLAWX_BEGIN begin_head_lt),
      firstIdx_wrapped_B]
    rfl
  have hfE : firstIdx (mergeClawXSection d s) CLAWX_END =
      some (2 + (22 + (jsTrim s).length)) := by
    rw [hm, firstIdx_append _ _ _ (fun i hi => hclean i hi CLAWX_END end_head_lt),
      firstIdx_wrapped_E s _ hst]
    rfl
  have htake : (mergeClawXSection d s).take 2 = ['\n', '\n'] := by
    rw [hm]
    rfl
  have hdrop : (mergeClawXSection d s).drop (2 + (22 + (jsTrim s).length) +
      CLAWX_END.length) = ['\n'] := by
    rw [hm]
    have hsh : (['\n', '\n'] : List Char) ++ (wrappedSection s ++ ['\n']) =
        ((['\n', '\n'] : List Char) ++ wrappedSection s) ++ ['\n'] := by simp
    rw [hsh]
    apply List.drop_left'
    rw [List.length_append, wrappedSection_length]
    simp
    omega
  rw [isHollowBootstrap, hfB, hfE]
  show (decide (jsTrim ((mergeClawXSection d s).take 2) = []) &&
    decide (jsTrim ((mergeClawXSection d s).drop
      (2 + (22 + (jsTrim s).length) + CLAWX_END.length)) = [])) = true
  rw [htake, hdrop]
  decide

/-! ### Filesystem model and the context-sync orchestrator -/

/-- Node `path.join(a, b)` for the plain segment arguments used by the
source: concatenation with a single separator. -/
def pathJoin (a b : List Char) : List Char := a ++ '/' :: b

/-- JavaScript `file.endsWith(pat)`. -/
def endsWithStr (l pat : List Char) : Bool := pat.isSuffixOf l

/-- Target document name derivation from `ensureClawXContext` line 149:
`file.replace('.clawx.md', '.md')`. -/
def targetNameOf (file : List Char) : List Char :=
  replaceFirst file ".clawx.md".data ".md".data

/-- Filesystem state: an association list from file paths to contents,
plus the list of existing directories. -/
structure FSState where
  files : List (List Char × List Char)
  dirs : List (List Char)

/-- File lookup; `isSome` of the result models `existsSync` on a file
path and `some` carries the `readFileSync` content. -/
def lookupFile : List (List Char × List Char) → List Char → Option (List Char)
  | [], _ => none
  | (q, c) :: rest, p => if q = p then some c else lookupFile rest p

/-- `writeFileSync`: overwrite the first binding when present, create
the file otherwise. -/
def writeFileEntry (fs : List (List Char × List Char)) (p c : List Char) :
    List (List Char × List Char) :=
  match fs with
  | [] => [(p, c)]
  | (q, c₀) :: rest => if q = p then (q, c) :: rest else (q, c₀) :: writeFileEntry rest p c

/-- `mkdirSync` guarded by `existsSync` (lines 144-146). -/
def ensureDir (fs : FSState) (d : List Char) : FSState :=
  if d ∈ fs.dirs then fs else { fs with dirs := d :: fs.dirs }

/-- Body of the inner loop of `ensureClawXContext` (lines 148-165) for
one template file in one workspace directory: derive the target path,
skip when the target does not exist, otherwise merge and write back
only when the merged result differs. The second component logs the
paths written, in order. -/
def syncTemplate (workspaceDir : List Char) (st : FSState × List (List Char))
    (tmpl : List Char × List Char) : FSState × List (List Char) :=
  match lookupFile st.1.files (pathJoin workspaceDir (targetNameOf tmpl.1)) with
  | none => st
  | some existing =>
    if mergeClawXSection existing tmpl.2 = existing then st
    else ({ st.1 with
        files := writeFileEntry st.1.files (pathJoin workspaceDir (targetNameOf tmpl.1))
          (mergeClawXSection existing tmpl.2) },
      st.2 ++ [pathJoin workspaceDir (targetNameOf tmpl.1)])

/-- One workspace directory pass of `ensureClawXContext`: create the
directory when absent, then process every template. -/
def syncWorkspace (templates : List (List Char × List Char))
    (st : FSState × List (List Char)) (workspaceDir : List Char) :
    FSState × List (List Char) :=
  templates.foldl (syncTemplate workspaceDir) (ensureDir st.1 workspaceDir, st.2)

/-- `ensureClawXContext` (lines 127-167) as a pure transformation: given
the bundled template files (name, body) and the discovered workspace
directories, keep the `*.clawx.md` templates and run every workspace
directory pass. Returns the final filesystem and the log of written
paths. -/
def ensureClawXContext (templates : List (List Char × List Char))
    (workspaceDirs : List (List Char)) (fs : FSState) :
    FSState × List (List Char) :=
  let files := templates.filter (fun t => endsWithStr t.1 ".clawx.md".data)
  workspaceDirs.foldl (syncWorkspace files) (fs, [])

/-! ### Workspace discovery (`resolveAllWorkspaceDirs`, lines 73-116) -/

/-- One entry of `config.agents.list`; the `workspace` field is `none`
when absent or not a string. -/
structure AgentRecord where
  workspace : Option (List Char)

/-- The `openclaw.json` fields the source reads, with `none` for an
absent or mistyped field. -/
structure OpenClawConfig where
  defaultWorkspace : Option (List Char)
  agentList : Option (List AgentRecord)

/-- One entry of `readdirSync(openclawDir, { withFileTypes: true })`. -/
structure FsDirEntry where
  name : List Char
  isDir : Bool

/-- JavaScript `ws.replace(/^~/, homedir())`. -/
def expandHome (home ws : List Char) : List Char :=
  match ws with
  | '~' :: rest => home ++ rest
  | _ => ws

/-- `Set.add` on the insertion-ordered string set. -/
def addUnique (l : List (List Char)) (x : List Char) : List (List Char) :=
  if x ∈ l then l else l ++ [x]

/-- The `~/.openclaw` base directory. -/
def openclawBase (home : List Char) : List Char := pathJoin home ".openclaw".data

/-- `config?.agents?.defaults?.workspace` contribution (lines 82-85). -/
def addDefaultWorkspace (home : List Char) (config : Option OpenClawConfig)
    (acc : List (List Char)) : List (List Char) :=
  match config with
  | none => acc
  | some cfg =>
    match cfg.defaultWorkspace with
    | some ws => if jsTrim ws ≠ [] then addUnique acc (expandHome home ws) else acc
    | none => acc

/-- `config?.agents?.list` contribution (lines 87-95). -/
def addAgentWorkspaces (home : List Char) (config : Option OpenClawConfig)
    (acc : List (List Char)) : List (List Char) :=
  match config with
  | none => acc
  | some cfg =>
    match cfg.agentList with
    | some agents =>
      agents.foldl (fun dirs a =>
        match a.workspace with
        | some ws => if jsTrim ws ≠ [] then addUnique dirs (expandHome home ws) else dirs
        | none => dirs) acc
    | none => acc

/-- `workspace*` subdirectory scan contribution (lines 101-109). -/
def addScannedWorkspaces (home : List Char) (scan : Option (List FsDirEntry))
    (acc : List (List Char)) : List (List Char) :=
  match scan with
  | none => acc
  | some entries =>
    entries.foldl (fun dirs e =>
      if e.isDir && "workspace".data.isPrefixOf e.name then
        addUnique dirs (pathJoin (openclawBase home) e.name)
      else dirs) acc

/-- Workspace paths contributed by the configuration file and by the
directory scan, before the fallback (lines 75-109). A missing or
unparseable configuration file is `none` and contributes nothing; a
failed directory scan is `none` likewise. -/
def collectWorkspaceDirs (home : List Char) (config : Option OpenClawConfig)
    (scan : Option (List FsDirEntry)) : List (List Char) :=
  addScannedWorkspaces home scan
    (addAgentWorkspaces home config (addDefaultWorkspace home config []))

/-- `resolveAllWorkspaceDirs`: configuration and scan contributions,
falling back to `~/.openclaw/workspace` when both yield nothing
(lines 111-115). -/
def resolveAllWorkspaceDirs (home : List Char) (config : Option OpenClawConfig)
    (scan : Option (List FsDirEntry)) : List (List Char) :=
  let dirs := collectWorkspaceDirs home config scan
  if dirs = [] then [pathJoin (openclawBase home) "workspace".data] else dirs

/-- Node `path.isAbsolute` on POSIX: the path starts with `/`. -/
def isAbsolutePath (p : List Char) : Bool :=
  match p with
  | '/' :: _ => true
  | _ => false

/-! ### Filesystem lemmas -/

theorem lookupFile_writeFileEntry (fs : List (List Char × List Char)) (p c q : List Char) :
    lookupFile (writeFileEntry fs p c) q = if q = p then some c else lookupFile fs q := by
  induction fs with
  | nil =>
    show (if p = q then some c else none) = _
    by_cases h : q = p
    · subst h
      simp
    · rw [if_neg (fun hc => h hc.symm), if_neg h]
      rfl
  | cons kv rest ih =>
    obtain ⟨k, c₀⟩ := kv
    show lookupFile (if k = p then (k, c) :: rest else (k, c₀) :: writeFileEntry rest p c) q = _
    by_cases hk : k = p
    · rw [if_pos hk]
      show (if k = q then some c else lookupFile rest q) = _
      subst hk
      by_cases hq : q = k
      · subst hq
        simp
      · rw [if_neg (fun hc => hq hc.symm), if_neg hq]
        show _ = if k = q then some c₀ else lookupFile rest q
        rw [if_neg (fun hc => hq hc.symm)]
    · rw [if_neg hk]
      show (if k = q then some c₀ else lookupFile (writeFileEntry rest p c) q) = _
      by_cases hq : k = q
      · rw [if_pos hq]
        have hqp : ¬ q = p := fun hc => hk (hq.trans hc)
        rw [if_neg hqp]
        show _ = if k = q then some c₀ else lookupFile rest q
        rw [if_pos hq]
      · rw [if_neg hq, ih]
        by_cases hqp : q = p
        · rw [if_pos hqp, if_pos hqp]
        · rw [if_neg hqp, if_neg hqp]
          show _ = if k = q then some c₀ else lookupFile rest q
          rw [if_neg hq]

theorem ensureDir_files (fs : FSState) (d : List Char) :
    (ensureDir fs d).files = fs.files := by
  unfold ensureDir
  split <;> rfl

theorem syncTemplate_frame (wd : List Char) (st : FSState × List (List Char))
    (tmpl : List Char × List Char) {p : List Char}
    (h : p ≠ pathJoin wd (targetNameOf tmpl.1)) :
    lookupFile (syncTemplate wd st tmpl).1.files p = lookupFile st.1.files p := by
  unfold syncTemplate
  cases hl : lookupFile st.1.files (pathJoin wd (targetNameOf tmpl.1)) with
  | none => rfl
  | some existing =>
    by_cases hm : mergeClawXSection existing tmpl.2 = existing
    · simp [hm]
    · simp [hm, lookupFile_writeFileEntry, h]

theorem syncTemplate_at_target (wd : List Char) (st : FSState × List (List Char))
    (tmpl : List Char × List Char) {c : List Char}
    (h : lookupFile st.1.files (pathJoin wd (targetNameOf tmpl.1)) = some c) :
    lookupFile (syncTemplate wd st tmpl).1.files (pathJoin wd (targetNameOf tmpl.1)) =
      some (mergeClawXSection c tmpl.2) := by
  unfold syncTemplate
  rw [h]
  by_cases hm : mergeClawXSection c tmpl.2 = c
  · simp [hm, h]
  · simp [hm, lookupFile_writeFileEntry]

theorem syncTemplate_of_absent (wd : List Char) (st : FSState × List (List Char))
    (tmpl : List Char × List Char)
    (h : lookupFile st.1.files (pathJoin wd (targetNameOf tmpl.1)) = none) :
    syncTemplate wd st tmpl = st := by
  unfold syncTemplate
  rw [h]

theorem syncTemplate_files_isSome (wd : List Char) (st : FSState × List (List Char))
    (tmpl : List Char × List Char) (p : List Char) :
    (lookupFile (syncTemplate wd st tmpl).1.files p).isSome =
      (lookupFile st.1.files p).isSome := by
  by_cases hp : p = pathJoin wd (targetNameOf tmpl.1)
  · subst hp
    cases hl : lookupFile st.1.files (pathJoin wd (targetNameOf tmpl.1)) with
    | none => rw [syncTemplate_of_absent wd st tmpl hl, hl]
    | some c =>
      rw [syncTemplate_at_target wd st tmpl hl]
      rfl
  · rw [syncTemplate_frame wd st tmpl hp]

theorem foldSync_files_isSome (wd : List Char) (T : List (List Char × List Char)) :
    ∀ (st : FSState × List (List Char)) (p : List Char),
      (lookupFile (T.foldl (syncTemplate wd) st).1.files p).isSome =
        (lookupFile st.1.files p).isSome := by
  induction T with
  | nil => intro st p; rfl
  | cons t T' ih =>
    intro st p
    rw [List.foldl_cons, ih, syncTemplate_files_isSome]

theorem foldDirs_files_isSome (T : List (List Char × List Char)) (W : List (List Char)) :
    ∀ (st : FSState × List (List Char)) (p : List Char),
      (lookupFile (W.foldl (syncWorkspace T) st).1.files p).isSome =
        (lookupFile st.1.files p).isSome := by
  induction W with
  | nil => intro st p; rfl
  | cons wd W' ih =>
    intro st p
    rw [List.foldl_cons, ih]
    show (lookupFile (T.foldl (syncTemplate wd) (ensureDir st.1 wd, st.2)).1.files p).isSome = _
    rw [foldSync_files_isSome]
    show (lookupFile (ensureDir st.1 wd).files p).isSome = _
    rw [ensureDir_files]

theorem foldSync_frame (wd : List Char) (T : List (List Char × List Char)) :
    ∀ (st : FSState × List (List Char)) (p : List Char),
      (∀ t ∈ T, p ≠ pathJoin wd (targetNameOf t.1)) →
      lookupFile (T.foldl (syncTemplate wd) st).1.files p = lookupFile st.1.files p := by
  induction T with
  | nil => intro st p _; rfl
  | cons t T' ih =>
    intro st p hp
    rw [List.foldl_cons, ih _ p (fun u hu => hp u (List.mem_cons_of_mem t hu)),
      syncTemplate_frame wd st t (hp t (List.mem_cons_self t T'))]

theorem foldDirs_frame (T : List (List Char × List Char)) (W : List (List Char)) :
    ∀ (st : FSState × List (List Char)) (p : List Char),
      (∀ wd ∈ W, ∀ t ∈ T, p ≠ pathJoin wd (targetNameOf t.1)) →
      lookupFile (W.foldl (syncWorkspace T) st).1.files p = lookupFile st.1.files p := by
  induction W with
  | nil => intro st p _; rfl
  | cons wd W' ih =>
    intro st p hp
    rw [List.foldl_cons, ih _ p (fun w hw t ht => hp w (List.mem_cons_of_mem wd hw) t ht)]
    show lookupFile (T.foldl (syncTemplate wd) (ensureDir st.1 wd, st.2)).1.files p = _
    rw [foldSync_frame wd T _ p (fun t ht => hp wd (List.mem_cons_self wd W') t ht)]
    show lookupFile (ensureDir st.1 wd).files p = _
    rw [ensureDir_files]

theorem syncTemplate_of_fixed (wd : List Char) (st : FSState × List (List Char))
    (tmpl : List Char × List Char) {c : List Char}
    (h : lookupFile st.1.files (pathJoin wd (targetNameOf tmpl.1)) = some c)
    (hm : mergeClawXSection c tmpl.2 = c) : syncTemplate wd st tmpl = st := by
  simp [syncTemplate, h, hm]

/-- After a full template pass over one workspace directory, every
target document that exists is a fixed point of its own merge, given
distinct target paths, `CLAWX_END`-free template bodies and
marker-balanced initial contents. -/
theorem foldSync_good (wd : List Char) (T : List (List Char × List Char)) :
    ∀ st : FSState × List (List Char),
      (T.map (fun t => pathJoin wd (targetNameOf t.1))).Nodup →
      (∀ t ∈ T, ¬ CLAWX_END <:+: t.2) →
      (∀ t ∈ T, ∀ c, lookupFile st.1.files (pathJoin wd (targetNameOf t.1)) = some c →
        wellFormedMarkers c = true) →
      ∀ t ∈ T, ∀ c', lookupFile (T.foldl (syncTemplate wd) st).1.files
          (pathJoin wd (targetNameOf t.1)) = some c' →
        mergeClawXSection c' t.2 = c' := by
  induction T with
  | nil =>
    intro st _ _ _ t ht
    exact absurd ht (List.not_mem_nil t)
  | cons t T' ih =>
    intro st hnd hend hwf u hu c' hc'
    rw [List.foldl_cons] at hc'
    rw [List.map_cons] at hnd
    have hndT : (T'.map (fun x => pathJoin wd (targetNameOf x.1))).Nodup :=
      (List.nodup_cons.mp hnd).2
    have hhead : pathJoin wd (targetNameOf t.1) ∉
        T'.map (fun x => pathJoin wd (targetNameOf x.1)) :=
      (List.nodup_cons.mp hnd).1
    rcases List.mem_cons.mp hu with heq | hu'
    · subst heq
      have hframe : lookupFile (T'.foldl (syncTemplate wd) (syncTemplate wd st u)).1.files
          (pathJoin wd (targetNameOf u.1)) =
          lookupFile (syncTemplate wd st u).1.files (pathJoin wd (targetNameOf u.1)) := by
        apply foldSync_frame
        intro v hv hveq
        exact hhead (hveq ▸ List.mem_map_of_mem _ hv)
      rw [hframe] at hc'
      cases h0 : lookupFile st.1.files (pathJoin wd (targetNameOf u.1)) with
      | none =>
        rw [syncTemplate_of_absent wd st u h0, h0] at hc'
        exact absurd hc' (by simp)
      | some c =>
        rw [syncTemplate_at_target wd st u h0] at hc'
        have hc'' : c' = mergeClawXSection c u.2 := (Option.some_inj.mp hc').symm
        subst hc''
        exact mergeClawXSection_idempotent c u.2
          (hwf u (List.mem_cons_self u T') c h0)
          (hend u (List.mem_cons_self u T'))
    · refine ih (syncTemplate wd st t) hndT
        (fun v hv => hend v (List.mem_cons_of_mem t hv)) ?_ u hu' c' hc'
      intro v hv c hcv
      have hne : pathJoin wd (targetNameOf v.1) ≠ pathJoin wd (targetNameOf t.1) := by
        intro he
        exact hhead (he ▸ List.mem_map_of_mem _ hv)
      rw [syncTemplate_frame wd st t hne] at hcv
      exact hwf v (List.mem_cons_of_mem t hv) c hcv

/-- After a full run of the orchestrator, every target document that
exists is a fixed point of its own merge. -/
theorem foldDirs_good (T : List (List Char × List Char)) (W : List (List Char)) :
    ∀ st : FSState × List (List Char),
      (W.flatMap (fun wd => T.map (fun t => pathJoin wd (targetNameOf t.1)))).Nodup →
      (∀ t ∈ T, ¬ CLAWX_END <:+: t.2) →
      (∀ wd ∈ W, ∀ t ∈ T, ∀ c,
        lookupFile st.1.files (pathJoin wd (targetNameOf t.1)) = some c →
        wellFormedMarkers c = true) →
      ∀ wd ∈ W, ∀ t ∈ T, ∀ c',
        lookupFile (W.foldl (syncWorkspace T) st).1.files
          (pathJoin wd (targetNameOf t.1)) = some c' →
        mergeClawXSection c' t.2 = c' := by
  induction W with
  | nil =>
    intro st _ _ _ wd hwd
    exact absurd hwd (List.not_mem_nil wd)
  | cons wd W' ih =>
    intro st hnd hend hwf w hw t ht c' hc'
    rw [List.foldl_cons] at hc'
    rw [List.flatMap_cons, List.nodup_append] at hnd
    obtain ⟨hndB, hndR, hdisj⟩ := hnd
    rcases List.mem_cons.mp hw with heq | hw'
    · subst heq
      have hframe : lookupFile (W'.foldl (syncWorkspace T) (syncWorkspace T st w)).1.files
          (pathJoin w (targetNameOf t.1)) =
          lookupFile (syncWorkspace T st w).1.files (pathJoin w (targetNameOf t.1)) := by
        apply foldDirs_frame
        intro w' hw' t' ht' heq'
        refine hdisj (List.mem_map_of_mem _ ht) ?_
        rw [heq']
        exact List.mem_flatMap.mpr ⟨w', hw', List.mem_map_of_mem _ ht'⟩
      rw [hframe] at hc'
      have hgood := foldSync_good w T (ensureDir st.1 w, st.2) hndB hend ?_ t ht c' hc'
      · exact hgood
      · intro v hv c hcv
        refine hwf w (List.mem_cons_self w W') v hv c ?_
        rw [← ensureDir_files st.1 w]
        exact hcv
    · refine ih (syncWorkspace T st wd) hndR hend ?_ w hw' t ht c' hc'
      intro w'' hw'' v hv c hcv
      have hnotin : ∀ u ∈ T, pathJoin w'' (targetNameOf v.1) ≠
          pathJoin wd (targetNameOf u.1) := by
        intro u hu heq'
        have h1 : pathJoin wd (targetNameOf u.1) ∈
            T.map (fun x => pathJoin wd (targetNameOf x.1)) := List.mem_map_of_mem _ hu
        have h2 : pathJoin wd (targetNameOf u.1) ∈
            W'.flatMap (fun x => T.map (fun y => pathJoin x (targetNameOf y.1))) := by
          rw [← heq']
          exact List.mem_flatMap.mpr ⟨w'', hw'', List.mem_map_of_mem _ hv⟩
        exact hdisj h1 h2
      have hcv' : lookupFile st.1.files (pathJoin w'' (targetNameOf v.1)) = some c := by
        have hsw : lookupFile (syncWorkspace T st wd).1.files
            (pathJoin w'' (targetNameOf v.1)) =
            lookupFile st.1.files (pathJoin w'' (targetNameOf v.1)) := by
          show lookupFile (T.foldl (syncTemplate wd) (ensureDir st.1 wd, st.2)).1.files _ = _
          rw [foldSync_frame wd T _ _ hnotin]
          show lookupFile (ensureDir st.1 wd).files _ = _
          rw [ensureDir_files]
        rw [hsw] at hcv
        exact hcv
      exact hwf w'' (List.mem_cons_of_mem wd hw'') v hv c hcv'

/-- A template pass performs no change at all when every existing
target is already a fixed point of its merge. -/
theorem foldSync_idle (wd : List Char) (T : List (List Char × List Char)) :
    ∀ st : FSState × List (List Char),
      (∀ t ∈ T, ∀ c', lookupFile st.1.files (pathJoin wd (targetNameOf t.1)) = some c' →
        mergeClawXSection c' t.2 = c') →
      T.foldl (syncTemplate wd) st = st := by
  induction T with
  | nil => intro st _; rfl
  | cons t T' ih =>
    intro st h
    rw [List.foldl_cons]
    have hstep : syncTemplate wd st t = st := by
      cases h0 : lookupFile st.1.files (pathJoin wd (targetNameOf t.1)) with
      | none => exact syncTemplate_of_absent wd st t h0
      | some c' => exact syncTemplate_of_fixed wd st t h0 (h t (List.mem_cons_self t T') c' h0)
    rw [hstep]
    exact ih st (fun u hu => h u (List.mem_cons_of_mem t hu))

/-- A full orchestrator run changes neither file contents nor the write
log when every existing target is already a fixed point of its merge;
only missing workspace directories get created. -/
theorem foldDirs_idle (T : List (List Char × List Char)) (W : List (List Char)) :
    ∀ st : FSState × List (List Char),
      (∀ wd ∈ W, ∀ t ∈ T, ∀ c',
        lookupFile st.1.files (pathJoin wd (targetNameOf t.1)) = some c' →
        mergeClawXSection c' t.2 = c') →
      (W.foldl (syncWorkspace T) st).1.files = st.1.files ∧
      (W.foldl (syncWorkspace T) st).2 = st.2 := by
  induction W with
  | nil => intro st _; exact ⟨rfl, rfl⟩
  | cons wd W' ih =>
    intro st h
    rw [List.foldl_cons]
    have hstep : syncWorkspace T st wd = (ensureDir st.1 wd, st.2) := by
      show T.foldl (syncTemplate wd) (ensureDir st.1 wd, st.2) = _
      apply foldSync_idle
      intro t ht c' hc'
      refine h wd (List.mem_cons_self wd W') t ht c' ?_
      rw [← ensureDir_files st.1 wd]
      exact hc'
    rw [hstep]
    have hinv : ∀ w ∈ W', ∀ t ∈ T, ∀ c',
        lookupFile (ensureDir st.1 wd, st.2).1.files (pathJoin w (targetNameOf t.1)) =
          some c' → mergeClawXSection c' t.2 = c' := by
      intro w hw t ht c' hc'
      refine h w (List.mem_cons_of_mem wd hw) t ht c' ?_
      rw [← ensureDir_files st.1 wd]
      exact hc'
    obtain ⟨h1, h2⟩ := ih (ensureDir st.1 wd, st.2) hinv
    refine ⟨?_, h2⟩
    rw [h1]
    exact ensureDir_files st.1 wd

/-! ### Discovery lemmas -/

theorem addUnique_nodup {l : List (List Char)} (x : List Char) (h : l.Nodup) :
    (addUnique l x).Nodup := by
  by_cases hx : x ∈ l
  · simpa [addUnique, hx] using h
  · simp [addUnique, hx, List.nodup_append, h]

theorem foldl_nodup_preserve {α : Type} (f : List (List Char) → α → List (List Char))
    (hf : ∀ acc x, acc.Nodup → (f acc x).Nodup) :
    ∀ (l : List α) (acc : List (List Char)), acc.Nodup → (l.foldl f acc).Nodup := by
  intro l
  induction l with
  | nil => intro acc h; exact h
  | cons a l' ih =>
    intro acc h
    exact ih (f acc a) (hf acc a h)

theorem addDefaultWorkspace_nodup (home : List Char) (config : Option OpenClawConfig)
    {acc : List (List Char)} (h : acc.Nodup) :
    (addDefaultWorkspace home config acc).Nodup := by
  cases config with
  | none => exact h
  | some cfg =>
    show (match cfg.defaultWorkspace with
      | some ws => if jsTrim ws ≠ [] then addUnique acc (expandHome home ws) else acc
      | none => acc).Nodup
    cases cfg.defaultWorkspace with
    | none => exact h
    | some ws =>
      show (if jsTrim ws ≠ [] then addUnique acc (expandHome home ws) else acc).Nodup
      by_cases hws : jsTrim ws ≠ []
      · rw [if_pos hws]
        exact addUnique_nodup _ h
      · rw [if_neg hws]
        exact h

theorem addAgentWorkspaces_nodup (home : List Char) (config : Option OpenClawConfig)
    {acc : List (List Char)} (h : acc.Nodup) :
    (addAgentWorkspaces home config acc).Nodup := by
  cases config with
  | none => exact h
  | some cfg =>
    show (match cfg.agentList with
      | some agents =>
        agents.foldl (fun (dirs : List (List Char)) (a : AgentRecord) =>
          match a.workspace with
          | some ws => if jsTrim ws ≠ [] then addUnique dirs (expandHome home ws) else dirs
          | none => dirs) acc
      | none => acc).Nodup
    cases cfg.agentList with
    | none => exact h
    | some agents =>
      refine foldl_nodup_preserve _ ?_ agents acc h
      intro acc' a ha
      show (match a.workspace with
        | some ws => if jsTrim ws ≠ [] then addUnique acc' (expandHome home ws) else acc'
        | none => acc').Nodup
      cases a.workspace with
      | none => exact ha
      | some ws =>
        show (if jsTrim ws ≠ [] then addUnique acc' (expandHome home ws) else acc').Nodup
        by_cases hws : jsTrim ws ≠ []
        · rw [if_pos hws]
          exact addUnique_nodup _ ha
        · rw [if_neg hws]
          exact ha

theorem addScannedWorkspaces_nodup (home : List Char) (scan : Option (List FsDirEntry))
    {acc : List (List Char)} (h : acc.Nodup) :
    (addScannedWorkspaces home scan acc).Nodup := by
  cases scan with
  | none => exact h
  | some entries =>
    refine foldl_nodup_preserve _ ?_ entries acc h
    intro acc' e he
    show (if e.isDir && "workspace".data.isPrefixOf e.name then
      addUnique acc' (pathJoin (openclawBase home) e.name) else acc').Nodup
    by_cases hc : e.isDir && "workspace".data.isPrefixOf e.name
    · rw [if_pos hc]
      exact addUnique_nodup _ he
    · rw [if_neg hc]
      exact he

theorem collectWorkspaceDirs_nodup (home : List Char) (config : Option OpenClawConfig)
    (scan : Option (List FsDirEntry)) : (collectWorkspaceDirs home config scan).Nodup :=
  addScannedWorkspaces_nodup home scan
    (addAgentWorkspaces_nodup home config
      (addDefaultWorkspace_nodup home config List.nodup_nil))

theorem no_overlap_clawxmd : ∀ k, k < 9 → 0 < k →
    ¬ ".clawx.md".data.drop k <+: ".clawx.md".data := by decide

/-! ## Claim theorems -/

/-- C1 counterexample: `mergeClawXSection` is not idempotent on every
document body. On a document consisting of `CLAWX_END` alone, the first
merge appends a wrapped section after the stray `CLAWX_END`; the second
merge then finds that stray `CLAWX_END` as the first end marker and
splices a second wrapped section, so the outputs differ. -/
theorem merge_not_idempotent_counterexample :
    mergeClawXSection (mergeClawXSection CLAWX_END "X".data) "X".data ≠
      mergeClawXSection CLAWX_END "X".data := by decide

/-- C1 (amended): `mergeClawXSection` is idempotent on every document
body whose markers are balanced — it contains both markers with the
first `CLAWX_BEGIN` before the first `CLAWX_END`, or neither marker —
for every section body that does not contain `CLAWX_END`. -/
theorem merge_idempotent_of_wellFormed (d s : List Char)
    (hd : wellFormedMarkers d = true) (hs : ¬ CLAWX_END <:+: s) :
    mergeClawXSection (mergeClawXSection d s) s = mergeClawXSection d s :=
  mergeClawXSection_idempotent d s hd hs

/-- Witness for the amended C1 at a concrete marker-free document and
section body. -/
theorem merge_idempotent_of_wellFormed_witness :
    wellFormedMarkers "Hello\n".data = true ∧ (¬ CLAWX_END <:+: "X".data) ∧
    mergeClawXSection (mergeClawXSection "Hello\n".data "X".data) "X".data =
      mergeClawXSection "Hello\n".data "X".data :=
  ⟨by decide, by decide,
    merge_idempotent_of_wellFormed "Hello\n".data "X".data (by decide) (by decide)⟩

/-- C2 counterexample: the replace-in-place equation fails for some
decompositions `d = prefix + BEGIN + old + END + suffix`. With
`prefix = suffix = ""` and `old = CLAWX_END`, the code replaces up to
the first `CLAWX_END` (the one inside `old`) and keeps the second one,
so the output is not the claimed `prefix + wrapped + suffix`. -/
theorem merge_replace_counterexample :
    mergeClawXSection (CLAWX_BEGIN ++ (CLAWX_END ++ CLAWX_END)) "X".data ≠
      wrappedSection "X".data := by decide

/-- C2 (amended): if `d = prefix + BEGIN + old + END + suffix` where
`prefix` contains neither marker and `old` does not contain
`CLAWX_END`, then the merge yields `prefix + BEGIN + "\n" + trim(s) +
"\n" + END + suffix`, preserving `prefix` and `suffix` byte-for-byte. -/
theorem merge_replaces_first_marker_span (pre old suf s : List Char)
    (h1 : ¬ CLAWX_BEGIN <:+: pre) (h2 : ¬ CLAWX_END <:+: pre)
    (h3 : ¬ CLAWX_END <:+: old) :
    mergeClawXSection (pre ++ (CLAWX_BEGIN ++ (old ++ (CLAWX_END ++ suf)))) s =
      pre ++ (wrappedSection s ++ suf) :=
  merge_replace_exact pre old suf s h1 h2 h3

/-- Witness for the amended C2 at concrete prefix, old section text and
suffix. -/
theorem merge_replaces_first_marker_span_witness :
    (¬ CLAWX_BEGIN <:+: "doc\n".data) ∧ (¬ CLAWX_END <:+: "doc\n".data) ∧
    (¬ CLAWX_END <:+: "stale".data) ∧
    mergeClawXSection
      ("doc\n".data ++ (CLAWX_BEGIN ++ ("stale".data ++ (CLAWX_END ++ "\ntail".data))))
      "X".data =
      "doc\n".data ++ (wrappedSection "X".data ++ "\ntail".data) :=
  ⟨by decide, by decide, by decide,
    merge_replaces_first_marker_span "doc\n".data "stale".data "\ntail".data "X".data
      (by decide) (by decide) (by decide)⟩

/-- C3: on a document containing neither marker, the merge appends
`"\n\n" + BEGIN + "\n" + trim(s) + "\n" + END + "\n"` after
right-trimming the document. -/
theorem merge_appends_when_markers_absent (d s : List Char)
    (hB : ¬ CLAWX_BEGIN <:+: d) (hE : ¬ CLAWX_END <:+: d) :
    mergeClawXSection d s =
      jsTrimEnd d ++ '\n' :: '\n' :: (wrappedSection s ++ ['\n']) :=
  merge_of_no_begin s (firstIdx_none_of_absent hB)

/-- Witness for C3: the spec's concrete scenario, merging
`"Rules: be nice"` into `"Hello\n"`. -/
theorem merge_appends_when_markers_absent_witness :
    (¬ CLAWX_BEGIN <:+: "Hello\n".data) ∧ (¬ CLAWX_END <:+: "Hello\n".data) ∧
    mergeClawXSection "Hello\n".data "Rules: be nice".data =
      "Hello\n\n<!-- clawx:begin -->\nRules: be nice\n<!-- clawx:end -->\n".data := by
  refine ⟨by decide, by decide, ?_⟩
  rw [merge_appends_when_markers_absent "Hello\n".data "Rules: be nice".data
    (by decide) (by decide)]
  decide

/-- C4: the hollow-bootstrap test returns true exactly when both
markers are present and the text strictly before the first
`CLAWX_BEGIN` and strictly after the first `CLAWX_END` both trim to
empty; together with the three concrete instances from the spec. -/
theorem isHollowBootstrap_characterization :
    (∀ c : List Char, isHollowBootstrap c = true ↔
      ∃ b e, firstIdx c CLAWX_BEGIN = some b ∧ firstIdx c CLAWX_END = some e ∧
        jsTrim (c.take b) = [] ∧ jsTrim (c.drop (e + CLAWX_END.length)) = []) ∧
    isHollowBootstrap (CLAWX_BEGIN ++ ('\n' :: 'X' :: '\n' :: CLAWX_END)) = true ∧
    isHollowBootstrap
      ("intro\n".data ++ (CLAWX_BEGIN ++ ('\n' :: 'X' :: '\n' :: CLAWX_END))) = false ∧
    isHollowBootstrap "no markers here".data = false := by
  refine ⟨?_, by decide, by decide, by decide⟩
  intro c
  cases hfB : firstIdx c CLAWX_BEGIN with
  | none =>
    rw [isHollowBootstrap, hfB]
    show false = true ↔ _
    constructor
    · intro h
      simp at h
    · rintro ⟨b, e, hb, he, h1, h2⟩
      simp at hb
  | some b =>
    cases hfE : firstIdx c CLAWX_END with
    | none =>
      rw [isHollowBootstrap, hfB, hfE]
      show false = true ↔ _
      constructor
      · intro h
        simp at h
      · rintro ⟨b', e', hb', he', h1, h2⟩
        simp at he'
    | some e =>
      rw [isHollowBootstrap, hfB, hfE]
      show (decide (jsTrim (c.take b) = []) &&
        decide (jsTrim (c.drop (e + CLAWX_END.length)) = [])) = true ↔ _
      constructor
      · intro h
        simp at h
        exact ⟨b, e, rfl, rfl, h.1, h.2⟩
      · rintro ⟨b', e', hb', he', h1, h2⟩
        have hb2 : b' = b := Option.some_inj.mp hb'.symm
        have he2 : e' = e := Option.some_inj.mp he'.symm
        subst hb2
        subst he2
        simp [h1, h2]

/-- C8 counterexample: the target name is not always the template name
with its trailing `.clawx.md` suffix replaced by `.md`. The code
replaces the first occurrence of `.clawx.md`, so a template name in
which `.clawx.md` also occurs before the suffix maps differently from
suffix substitution. -/
theorem targetNameOf_counterexample :
    endsWithStr "a.clawx.md.clawx.md".data ".clawx.md".data = true ∧
    targetNameOf "a.clawx.md.clawx.md".data = "a.md.clawx.md".data ∧
    targetNameOf "a.clawx.md.clawx.md".data ≠ "a.clawx.md".data ++ ".md".data := by
  decide

/-- C8 (amended): the derived target name replaces the first occurrence
of `.clawx.md` with `.md`; this coincides with trailing-suffix
substitution exactly when `.clawx.md` does not occur before the
suffix. -/
theorem targetNameOf_first_occurrence (stem : List Char)
    (h : ¬ ".clawx.md".data <:+: stem) :
    targetNameOf (stem ++ ".clawx.md".data) = stem ++ ".md".data := by
  have h9 : (".clawx.md".data).length = 9 := by decide
  have hfi : firstIdx (stem ++ ".clawx.md".data) ".clawx.md".data = some stem.length := by
    have hclean : ∀ i, i < stem.length →
        ¬ ".clawx.md".data <+: (stem ++ ".clawx.md".data).drop i := by
      intro i hi hocc
      by_cases hfull : i + (".clawx.md".data).length ≤ stem.length
      · exact h ((infix_iff_exists_occ _ _).mpr ⟨i, (occ_inner hfull).mp hocc⟩)
      · have hstr := occ_straddle hocc hi (by omega)
        exact no_overlap_clawxmd (stem.length - i) (by omega) (by omega) hstr
    rw [firstIdx_append _ _ _ hclean, firstIdx_of_start (List.prefix_refl _)]
    simp
  rw [targetNameOf, replaceFirst, hfi]
  show (stem ++ ".clawx.md".data).take stem.length ++ ".md".data ++
      (stem ++ ".clawx.md".data).drop (stem.length + (".clawx.md".data).length) =
    stem ++ ".md".data
  have hdrop : (stem ++ ".clawx.md".data).drop
      (stem.length + (".clawx.md".data).length) = [] :=
    List.drop_eq_nil_of_le (by simp)
  rw [List.take_left, hdrop]
  simp

/-- Witness for the amended C8 at the spec's example `AGENTS.clawx.md`. -/
theorem targetNameOf_first_occurrence_witness :
    (¬ ".clawx.md".data <:+: "AGENTS".data) ∧
    targetNameOf ("AGENTS".data ++ ".clawx.md".data) = "AGENTS".data ++ ".md".data :=
  ⟨by decide, targetNameOf_first_occurrence "AGENTS".data (by decide)⟩

/-- C9: every output of `mergeClawXSection` contains at least one
`CLAWX_BEGIN` and one `CLAWX_END`, so any subsequent merge on the
output finds both markers and takes the in-place replacement branch,
never the append branch. -/
theorem merge_output_always_has_markers (d s : List Char) :
    ((firstIdx (mergeClawXSection d s) CLAWX_BEGIN).isSome = true ∧
     (firstIdx (mergeClawXSection d s) CLAWX_END).isSome = true) ∧
    ∀ s₂ : List Char, ∃ b e, firstIdx (mergeClawXSection d s) CLAWX_BEGIN = some b ∧
      firstIdx (mergeClawXSection d s) CLAWX_END = some e ∧
      mergeClawXSection (mergeClawXSection d s) s₂ =
        (mergeClawXSection d s).take b ++ (wrappedSection s₂ ++
          (mergeClawXSection d s).drop (e + CLAWX_END.length)) := by
  refine ⟨merge_output_has_both_markers d s, ?_⟩
  intro s₂
  obtain ⟨hB, hE⟩ := merge_output_has_both_markers d s
  rcases Option.isSome_iff_exists.mp hB with ⟨b, hb⟩
  rcases Option.isSome_iff_exists.mp hE with ⟨e, he⟩
  exact ⟨b, e, hb, he, merge_of_both s₂ hb he⟩

/-- C10: merging a section body containing neither marker into a
whitespace-only document containing neither marker produces exactly the
kind of document the hollow-bootstrap test recognises, so the next
repair pass would delete it. -/
theorem merge_empty_body_yields_hollow (d s : List Char)
    (hw : ∀ c ∈ d, isJsWhitespace c = true)
    (hdB : ¬ CLAWX_BEGIN <:+: d) (hdE : ¬ CLAWX_END <:+: d)
    (hsB : ¬ CLAWX_BEGIN <:+: s) (hsE : ¬ CLAWX_END <:+: s) :
    isHollowBootstrap (mergeClawXSection d s) = true :=
  merge_into_whitespace_is_hollow d s hw hdB hsE

/-- Witness for C10 at a concrete whitespace-only document. -/
theorem merge_empty_body_yields_hollow_witness :
    (∀ c ∈ "\n".data, isJsWhitespace c = true) ∧
    (¬ CLAWX_BEGIN <:+: "\n".data) ∧ (¬ CLAWX_END <:+: "\n".data) ∧
    (¬ CLAWX_BEGIN <:+: "Rules".data) ∧ (¬ CLAWX_END <:+: "Rules".data) ∧
    isHollowBootstrap (mergeClawXSection "\n".data "Rules".data) = true :=
  ⟨by decide, by decide, by decide, by decide, by decide,
    merge_empty_body_yields_hollow "\n".data "Rules".data
      (by decide) (by decide) (by decide) (by decide) (by decide)⟩

/-- C5: `ensureClawXContext` never creates a target document — a file
path exists after the run exactly when it existed before, for every
template set, every workspace directory list and every filesystem
state. A workspace directory holding zero documents therefore still
holds zero documents afterwards, even when templates exist. -/
theorem ensureClawXContext_creates_no_document (templates : List (List Char × List Char))
    (workspaceDirs : List (List Char)) (fs : FSState) (p : List Char) :
    (lookupFile (ensureClawXContext templates workspaceDirs fs).1.files p).isSome =
      (lookupFile fs.files p).isSome := by
  show (lookupFile (workspaceDirs.foldl
    (syncWorkspace (templates.filter (fun t => endsWithStr t.1 ".clawx.md".data)))
    (fs, [])).1.files p).isSome = _
  rw [foldDirs_files_isSome]

/-- C6 counterexample: a second run of the orchestrator on the output
of a first run can perform a write. The pre-existing target document
`ws/A.md` consists of a stray `CLAWX_END` alone, so the merge is not
idempotent on it and the second run writes again. -/
theorem syncContext_second_run_counterexample :
    (ensureClawXContext [("A.clawx.md".data, "X".data)] ["ws".data]
      (ensureClawXContext [("A.clawx.md".data, "X".data)] ["ws".data]
        ⟨[("ws/A.md".data, CLAWX_END)], ["ws".data]⟩).1).2 ≠ [] := by
  decide

/-- C6 (amended): the per-target step writes back exactly when the
merged result differs from the current content; and a second
orchestrator run on the output of a first run performs no write,
provided the template bodies do not contain `CLAWX_END`, every
pre-existing file content is marker-balanced, and no two
(directory, template) pairs derive the same target path. -/
theorem syncContext_write_iff_and_second_run_idle
    (templates : List (List Char × List Char)) (workspaceDirs : List (List Char))
    (fs : FSState)
    (hend : ∀ t ∈ templates.filter (fun t => endsWithStr t.1 ".clawx.md".data),
      ¬ CLAWX_END <:+: t.2)
    (hwf : ∀ p c, lookupFile fs.files p = some c → wellFormedMarkers c = true)
    (hnd : (workspaceDirs.flatMap (fun wd =>
      (templates.filter (fun t => endsWithStr t.1 ".clawx.md".data)).map
        (fun t => pathJoin wd (targetNameOf t.1)))).Nodup) :
    (∀ (wd : List Char) (st : FSState × List (List Char)) (tmpl : List Char × List Char)
      (c : List Char),
      lookupFile st.1.files (pathJoin wd (targetNameOf tmpl.1)) = some c →
      (mergeClawXSection c tmpl.2 = c → syncTemplate wd st tmpl = st) ∧
      (mergeClawXSection c tmpl.2 ≠ c →
        (syncTemplate wd st tmpl).2 = st.2 ++ [pathJoin wd (targetNameOf tmpl.1)] ∧
        (syncTemplate wd st tmpl).1.files =
          writeFileEntry st.1.files (pathJoin wd (targetNameOf tmpl.1))
            (mergeClawXSection c tmpl.2))) ∧
    (ensureClawXContext templates workspaceDirs
      (ensureClawXContext templates workspaceDirs fs).1).2 = [] := by
  constructor
  · intro wd st tmpl c hc
    constructor
    · intro hm
      exact syncTemplate_of_fixed wd st tmpl hc hm
    · intro hm
      constructor
      · simp [syncTemplate, hc, hm]
      · simp [syncTemplate, hc, hm]
  · have hwf0 : ∀ wd ∈ workspaceDirs,
        ∀ t ∈ templates.filter (fun t => endsWithStr t.1 ".clawx.md".data),
        ∀ c, lookupFile (fs, ([] : List (List Char))).1.files
          (pathJoin wd (targetNameOf t.1)) = some c → wellFormedMarkers c = true := by
      intro wd _ t _ c hc
      exact hwf _ c hc
    have hgood := foldDirs_good _ workspaceDirs (fs, []) hnd hend hwf0
    have hinv : ∀ wd ∈ workspaceDirs,
        ∀ t ∈ templates.filter (fun t => endsWithStr t.1 ".clawx.md".data), ∀ c',
        lookupFile ((ensureClawXContext templates workspaceDirs fs).1,
          ([] : List (List Char))).1.files (pathJoin wd (targetNameOf t.1)) = some c' →
        mergeClawXSection c' t.2 = c' := by
      intro wd hwd t ht c' hc'
      exact hgood wd hwd t ht c' hc'
    exact (foldDirs_idle _ workspaceDirs
      ((ensureClawXContext templates workspaceDirs fs).1, []) hinv).2

/-- Concrete filesystem for the C6 witness: one workspace directory,
one well-formed target document, one template. -/
def sampleFS : FSState := ⟨[("ws/A.md".data, "Hello\n".data)], []⟩

/-- Concrete template set for the C6 witness. -/
def sampleTemplates : List (List Char × List Char) := [("A.clawx.md".data, "X".data)]

/-- Concrete workspace directory list for the C6 witness. -/
def sampleDirs : List (List Char) := ["ws".data]

/-- Witness for the amended C6: on a concrete well-formed filesystem,
the second run performs no write. -/
theorem syncContext_write_iff_and_second_run_idle_witness :
    (∀ t ∈ sampleTemplates.filter (fun t => endsWithStr t.1 ".clawx.md".data),
      ¬ CLAWX_END <:+: t.2) ∧
    (∀ p c, lookupFile sampleFS.files p = some c → wellFormedMarkers c = true) ∧
    (sampleDirs.flatMap (fun wd =>
      (sampleTemplates.filter (fun t => endsWithStr t.1 ".clawx.md".data)).map
        (fun t => pathJoin wd (targetNameOf t.1)))).Nodup ∧
    (ensureClawXContext sampleTemplates sampleDirs
      (ensureClawXContext sampleTemplates sampleDirs sampleFS).1).2 = [] := by
  have hwf : ∀ p c, lookupFile sampleFS.files p = some c → wellFormedMarkers c = true := by
    intro p c h
    have hl : lookupFile sampleFS.files p =
        if "ws/A.md".data = p then some "Hello\n".data else none := rfl
    rw [hl] at h
    by_cases hp : "ws/A.md".data = p
    · rw [if_pos hp] at h
      have hc : c = "Hello\n".data := (Option.some_inj.mp h).symm
      subst hc
      decide
    · rw [if_neg hp] at h
      simp at h
  exact ⟨by decide, hwf, by decide,
    (syncContext_write_iff_and_second_run_idle sampleTemplates sampleDirs sampleFS
      (by decide) hwf (by decide)).2⟩

/-- C7 counterexample: the discovery result is not always a set of
absolute paths. A configured workspace value that is neither
`~`-prefixed nor absolute is added verbatim, so the result can contain
a relative path. -/
theorem resolveWorkspaceDirs_relative_counterexample :
    "w".data ∈ resolveAllWorkspaceDirs "/home/user".data
      (some ⟨some "w".data, none⟩) (some []) ∧
    isAbsolutePath "w".data = false := by decide

/-- C7 (amended): discovery is total over every configuration and scan
outcome — a missing or malformed configuration (`none`) and a failed
scan (`none`) contribute nothing — and the result is deduplicated,
non-empty, and equals the fixed default path
`~/.openclaw/workspace` exactly when the configuration and scan
sources together yield nothing. Paths are returned verbatim apart from
`~`-expansion, so they need not be absolute. -/
theorem resolveWorkspaceDirs_discovery_spec (home : List Char)
    (config : Option OpenClawConfig) (scan : Option (List FsDirEntry)) :
    (resolveAllWorkspaceDirs home config scan).Nodup ∧
    resolveAllWorkspaceDirs home config scan ≠ [] ∧
    (collectWorkspaceDirs home config scan = [] →
      resolveAllWorkspaceDirs home config scan =
        [pathJoin (openclawBase home) "workspace".data]) ∧
    (collectWorkspaceDirs home config scan ≠ [] →
      resolveAllWorkspaceDirs home config scan = collectWorkspaceDirs home config scan) := by
  by_cases h : collectWorkspaceDirs home config scan = []
  · refine ⟨?_, ?_, fun _ => ?_, fun hc => absurd h hc⟩ <;>
      simp [resolveAllWorkspaceDirs, h]
  · refine ⟨?_, ?_, fun hc => absurd hc h, fun _ => ?_⟩
    · simpa [resolveAllWorkspaceDirs, h] using collectWorkspaceDirs_nodup home config scan
    · simp [resolveAllWorkspaceDirs, h]
    · simp [resolveAllWorkspaceDirs, h]

/-- Witness for the amended C7 with the configuration file missing
entirely and the scan failing. -/
theorem resolveWorkspaceDirs_discovery_spec_witness :
    (resolveAllWorkspaceDirs "/home/user".data none none).Nodup ∧
    resolveAllWorkspaceDirs "/home/user".data none none ≠ [] ∧
    resolveAllWorkspaceDirs "/home/user".data none none =
      [pathJoin (openclawBase "/home/user".data) "workspace".data] :=
  ⟨(resolveWorkspaceDirs_discovery_spec "/home/user".data none none).1,
   (resolveWorkspaceDirs_discovery_spec "/home/user".data none none).2.1,
   (resolveWorkspaceDirs_discovery_spec "/home/user".data none none).2.2.1 (by decide)⟩

end ClawX
